/-
Verification of the jaxns special-prior transformation layer and the
structured serialisation bridge, as a shallow embedding in Lean 4.

Sources embedded:
  - src/jaxns/framework/special_priors.py
      Bernoulli, Beta, Categorical, ForcedIdentifiability, Poisson
  - src/jaxns/internals/namedtuple_utils.py
      serialise_namedtuple / deserialise_namedtuple

Floating-point arithmetic is embedded as exact real arithmetic (ℝ);
"within floating-point tolerance" becomes exact equality over ℝ.
Parameter-dispatch logic that compares Python scalars and numpy arrays is
embedded over ℚ so it stays decidable.
-/
import Mathlib

/-! ## ForcedIdentifiability (special_priors.py lines 185-284)

Parameters stored by `ForcedIdentifiability.__init__`: `n`, `low`, `high`,
`fix_left`, `fix_right`.  We embed the scalar-batch case (`low`, `high`
scalars), so each array of the Python code is a function `Fin m → ℝ`
and the leading axis is the only axis. -/

structure FIParams where
  n : ℕ
  low : ℝ
  high : ℝ
  fix_left : Bool
  fix_right : Bool

/-- The reduced count used throughout `ForcedIdentifiability`:
`n` minus one per fixed endpoint (the code decrements `n` once for
`fix_left` and once for `fix_right`). -/
def nfree (p : FIParams) : ℕ :=
  p.n - (if p.fix_left then 1 else 0) - (if p.fix_right then 1 else 0)

/-- `inner = log_x / k` of `ForcedIdentifiability._quantile`, with
`log_x = jnp.log(U)` and `k = jnp.arange(n) + 1` (position `i` uses
`k = i + 1`). -/
noncomputable def fiInner (m : ℕ) (u : Fin m → ℝ) : Fin m → ℝ :=
  fun i => Real.log (u i) / (i.val + 1)

/-- `log_output = jnp.cumsum(inner[::-1], axis=0)[::-1]` of
`ForcedIdentifiability._quantile`: the reverse cumulative sum, so
position `i` holds the sum of `inner j` over all `j ≥ i`. -/
noncomputable def fiLogOutput (m : ℕ) (u : Fin m → ℝ) : Fin m → ℝ :=
  fun i => ∑ j ∈ Finset.univ.filter (fun j : Fin m => i ≤ j), fiInner m u j

/-- `output = low + (high - low) * jnp.exp(log_output)`: the free part of
`ForcedIdentifiability._quantile`, before fixed endpoints are concatenated. -/
noncomputable def fiQuantileFree (m : ℕ) (low high : ℝ) (u : Fin m → ℝ) : Fin m → ℝ :=
  fun i => low + (high - low) * Real.exp (fiLogOutput m u i)

/-- `ForcedIdentifiability._quantile` (= `_forward`): the free part, with
`low` concatenated on the front when `fix_left` and `high` concatenated on
the back when `fix_right`. -/
noncomputable def fiQuantile (p : FIParams) (u : Fin (nfree p) → ℝ) : List ℝ :=
  (if p.fix_left then [p.low] else [])
    ++ List.ofFn (fiQuantileFree (nfree p) p.low p.high u)
    ++ (if p.fix_right then [p.high] else [])

/-- The endpoint stripping of `ForcedIdentifiability._cdf`:
`X = X[1:]` when `fix_left`, then `X = X[:-1]` when `fix_right`. -/
def fiStrip (p : FIParams) (X : List ℝ) : List ℝ :=
  if p.fix_right then (if p.fix_left then X.drop 1 else X).dropLast
  else (if p.fix_left then X.drop 1 else X)

/-- `log_output = jnp.log((X - low) / (high - low))` of
`ForcedIdentifiability._cdf` (after stripping). -/
noncomputable def fiLogOutputInv (m : ℕ) (low high : ℝ) (X : Fin m → ℝ) : Fin m → ℝ :=
  fun j => Real.log ((X j - low) / (high - low))

/-- The per-position computation of `ForcedIdentifiability._cdf` after
stripping: `inner = jnp.diff(log_output[::-1], prepend=0)[::-1]` (so
position `i` holds `log_output[i] - log_output[i+1]`, with
`log_output[m] = 0` coming from the prepended zero), then
`log_x = inner * k` and `U = exp(log_x)`. -/
noncomputable def fiCdfFree (m : ℕ) (low high : ℝ) (X : Fin m → ℝ) : Fin m → ℝ :=
  fun i =>
    Real.exp ((fiLogOutputInv m low high X i -
      (if h : i.val + 1 < m then fiLogOutputInv m low high X ⟨i.val + 1, h⟩ else 0)) *
      (i.val + 1))

/-- `ForcedIdentifiability._cdf` (= `_inverse`): strip the fixed endpoints,
then invert the forward recursion on the remaining `n_free` values (the
code sizes every intermediate array from `self.n` and the fix flags; the
input is read positionally). -/
noncomputable def fiCdf (p : FIParams) (X : List ℝ) : List ℝ :=
  List.ofFn (fiCdfFree (nfree p) p.low p.high fun i => (fiStrip p X).getD i 0)

/-- `gammaln` as used by `ForcedIdentifiability._log_prob`
(`jax._src.scipy.special.gammaln`): the log of the Gamma function. -/
noncomputable def gammaln (x : ℝ) : ℝ := Real.log (Real.Gamma x)

/-- `ForcedIdentifiability._log_prob`: with `n` the reduced count,
`-gammaln(n + 1) - n * log(high - low)`.  The argument `X` is ignored
(`# no check that X is inside high and low`). -/
noncomputable def ForcedIdentifiability_log_prob (p : FIParams) (_X : List ℝ) : ℝ :=
  - gammaln ((nfree p : ℝ) + 1) - (nfree p : ℝ) * Real.log (p.high - p.low)

/-- The fields stored by a successful `ForcedIdentifiability.__init__`.
Python ints are embedded as ℤ; `low`, `high` as scalars (the code merely
broadcasts them against each other). -/
structure FIInitResult where
  n : ℤ
  low : ℝ
  high : ℝ
  fix_left : Bool
  fix_right : Bool

/-- `ForcedIdentifiability.__init__`: computes
`n_min = (1 if fix_left else 0) + (1 if fix_right else 0)` and raises
`ValueError` when `n < n_min`; otherwise stores the fields. -/
def ForcedIdentifiability_init (n : ℤ) (low high : ℝ) (fl fr : Bool) :
    Except String FIInitResult :=
  let n_min : ℤ := (if fl then 1 else 0) + (if fr then 1 else 0)
  if n < n_min then Except.error "n too small for fix_left and fix_right"
  else Except.ok ⟨n, low, high, fl, fr⟩

/-! ### C3: the closed form of `log_prob` -/

/-- C3: For `ForcedIdentifiability` with any fixed parameters, `log_prob X`
equals the closed form `-log(n_free !) - n_free * log(high - low)` for every
input `X` (the output is constant, independent of the particular ordered
values); in particular for `n = 3`, `low = 0`, `high = 1`,
`fix_left = true`, `fix_right = true` it equals `0`. -/
theorem forcedIdentifiability_log_prob_closed_form :
    (∀ (p : FIParams) (X : List ℝ),
      ForcedIdentifiability_log_prob p X =
        - Real.log (Nat.factorial (nfree p)) - (nfree p) * Real.log (p.high - p.low)) ∧
    (∀ (p : FIParams) (X1 X2 : List ℝ),
      ForcedIdentifiability_log_prob p X1 = ForcedIdentifiability_log_prob p X2) ∧
    (∀ X : List ℝ,
      ForcedIdentifiability_log_prob ⟨3, 0, 1, true, true⟩ X = 0) := by
  have hform : ∀ (p : FIParams) (X : List ℝ),
      ForcedIdentifiability_log_prob p X =
        - Real.log (Nat.factorial (nfree p)) - (nfree p) * Real.log (p.high - p.low) := by
    intro p X
    unfold ForcedIdentifiability_log_prob gammaln
    rw [Real.Gamma_nat_eq_factorial]
  refine ⟨hform, ?_, ?_⟩
  · intro p X1 X2
    rw [hform p X1, hform p X2]
  · intro X
    rw [hform]
    have h1 : nfree ⟨3, 0, 1, true, true⟩ = 1 := by decide
    rw [h1]
    norm_num

/-! ### C5: construction-time validation -/

/-- C5: Constructing a `ForcedIdentifiability` prior raises a validation
error if and only if `n` is smaller than the number of fixed endpoints
requested; otherwise construction succeeds and stores the given fields,
so the error is surfaced by the constructor itself, before any transform
is applied. -/
theorem forcedIdentifiability_init_validation (n : ℤ) (low high : ℝ) (fl fr : Bool) :
    ((∃ msg, ForcedIdentifiability_init n low high fl fr = Except.error msg) ↔
      n < (if fl then 1 else 0) + (if fr then 1 else 0)) ∧
    ((if fl then (1 : ℤ) else 0) + (if fr then 1 else 0) ≤ n →
      ForcedIdentifiability_init n low high fl fr = Except.ok ⟨n, low, high, fl, fr⟩) := by
  unfold ForcedIdentifiability_init
  constructor
  · by_cases h : n < (if fl then (1 : ℤ) else 0) + (if fr then 1 else 0)
    · simp [h]
    · simp [h]
  · intro hle
    rw [if_neg (not_lt.mpr hle)]

/-- Witness for C5 at `n = 1`, `fix_left = fix_right = true` (error case
reachable) and at `n = 3` (success case). -/
theorem forcedIdentifiability_init_validation_witness :
    (∃ msg, ForcedIdentifiability_init 1 0 1 true true = Except.error msg) ∧
    ForcedIdentifiability_init 3 0 1 true true = Except.ok ⟨3, 0, 1, true, true⟩ := by
  constructor
  · exact (forcedIdentifiability_init_validation 1 0 1 true true).1.mpr (by decide)
  · exact (forcedIdentifiability_init_validation 3 0 1 true true).2 (by decide)

/-! ### Helper lemmas about the order-statistics recursion -/

/-- Each summand `log(u i) / (i + 1)` is nonpositive when `u i ∈ (0, 1)`. -/
lemma fiInner_nonpos (m : ℕ) (u : Fin m → ℝ) (hu : ∀ i, 0 < u i ∧ u i < 1) (i : Fin m) :
    fiInner m u i ≤ 0 := by
  unfold fiInner
  rw [div_nonpos_iff]
  right
  exact ⟨Real.log_nonpos (hu i).1.le (hu i).2.le, by positivity⟩

lemma fiLogOutput_nonpos (m : ℕ) (u : Fin m → ℝ) (hu : ∀ i, 0 < u i ∧ u i < 1)
    (i : Fin m) : fiLogOutput m u i ≤ 0 :=
  Finset.sum_nonpos fun j _ => fiInner_nonpos m u hu j

/-- The reverse cumulative sum is monotone along the index when all
summands are nonpositive. -/
lemma fiLogOutput_mono (m : ℕ) (u : Fin m → ℝ) (hu : ∀ i, 0 < u i ∧ u i < 1)
    {i j : Fin m} (hij : i ≤ j) : fiLogOutput m u i ≤ fiLogOutput m u j := by
  unfold fiLogOutput
  have hsub : Finset.univ.filter (fun k : Fin m => j ≤ k) ⊆
      Finset.univ.filter (fun k : Fin m => i ≤ k) := by
    intro k hk
    simp only [Finset.mem_filter, Finset.mem_univ, true_and] at hk ⊢
    exact le_trans hij hk
  have h : (∑ k ∈ Finset.univ.filter (fun k : Fin m => j ≤ k), -(fiInner m u k)) ≤
      ∑ k ∈ Finset.univ.filter (fun k : Fin m => i ≤ k), -(fiInner m u k) :=
    Finset.sum_le_sum_of_subset_of_nonneg hsub
      (fun k _ _ => neg_nonneg.mpr (fiInner_nonpos m u hu k))
  rw [Finset.sum_neg_distrib, Finset.sum_neg_distrib] at h
  linarith

/-- Peeling one position off the reverse cumulative sum:
`log_output i = inner i + log_output (i+1)`, with the empty tail summing
to `0` at the last position. -/
lemma fiLogOutput_peel (m : ℕ) (u : Fin m → ℝ) (i : Fin m) :
    fiLogOutput m u i =
      fiInner m u i +
        (if h : i.val + 1 < m then fiLogOutput m u ⟨i.val + 1, h⟩ else 0) := by
  unfold fiLogOutput
  by_cases h : i.val + 1 < m
  · rw [dif_pos h]
    have hset : Finset.univ.filter (fun j : Fin m => i ≤ j) =
        insert i (Finset.univ.filter (fun j : Fin m => (⟨i.val + 1, h⟩ : Fin m) ≤ j)) := by
      ext j
      simp only [Finset.mem_filter, Finset.mem_univ, true_and, Finset.mem_insert,
        Fin.le_def, Fin.ext_iff]
      omega
    have hnot : i ∉ Finset.univ.filter (fun j : Fin m => (⟨i.val + 1, h⟩ : Fin m) ≤ j) := by
      simp only [Finset.mem_filter, Finset.mem_univ, true_and, Fin.le_def]
      omega
    rw [hset, Finset.sum_insert hnot]
  · rw [dif_neg h]
    have hset : Finset.univ.filter (fun j : Fin m => i ≤ j) = {i} := by
      ext j
      simp only [Finset.mem_filter, Finset.mem_univ, true_and, Finset.mem_singleton,
        Fin.le_def, Fin.ext_iff]
      omega
    rw [hset, Finset.sum_singleton, add_zero]

/-- The free part of the forward transform stays inside `[low, high]`. -/
lemma fiQuantileFree_mem (m : ℕ) (low high : ℝ) (u : Fin m → ℝ)
    (hu : ∀ i, 0 < u i ∧ u i < 1) (hlh : low ≤ high) (i : Fin m) :
    low ≤ fiQuantileFree m low high u i ∧ fiQuantileFree m low high u i ≤ high := by
  unfold fiQuantileFree
  constructor
  · have h1 : 0 ≤ (high - low) * Real.exp (fiLogOutput m u i) :=
      mul_nonneg (sub_nonneg.mpr hlh) (Real.exp_pos _).le
    linarith
  · have h2 : (high - low) * Real.exp (fiLogOutput m u i) ≤ high - low :=
      mul_le_of_le_one_right (sub_nonneg.mpr hlh)
        (Real.exp_le_one_iff.mpr (fiLogOutput_nonpos m u hu i))
    linarith

/-- The free part of the forward transform is monotone along the index. -/
lemma fiQuantileFree_mono (m : ℕ) (low high : ℝ) (u : Fin m → ℝ)
    (hu : ∀ i, 0 < u i ∧ u i < 1) (hlh : low ≤ high) {i j : Fin m} (hij : i ≤ j) :
    fiQuantileFree m low high u i ≤ fiQuantileFree m low high u j := by
  unfold fiQuantileFree
  have hexp : Real.exp (fiLogOutput m u i) ≤ Real.exp (fiLogOutput m u j) :=
    Real.exp_le_exp.mpr (fiLogOutput_mono m u hu hij)
  have := mul_le_mul_of_nonneg_left hexp (sub_nonneg.mpr hlh)
  linarith

/-! ### C4: forward output ordered, endpoints fixed exactly -/

/-- C4: For `ForcedIdentifiability` with `low ≤ high` and every
`u ∈ (0,1)^base_shape`, the output of `forward(u)` is non-decreasing along
the leading axis; with `fix_left` the first value equals `low` exactly, and
with `fix_right` the last value equals `high` exactly. -/
theorem forcedIdentifiability_quantile_sorted (p : FIParams) (u : Fin (nfree p) → ℝ)
    (hu : ∀ i, 0 < u i ∧ u i < 1) (hlh : p.low ≤ p.high) :
    (fiQuantile p u).Pairwise (· ≤ ·) ∧
    (p.fix_left = true → (fiQuantile p u).head? = some p.low) ∧
    (p.fix_right = true → (fiQuantile p u).getLast? = some p.high) := by
  have hfree : (List.ofFn (fiQuantileFree (nfree p) p.low p.high u)).Pairwise (· ≤ ·) := by
    rw [List.pairwise_ofFn]
    intro i j hij
    exact fiQuantileFree_mono (nfree p) p.low p.high u hu hlh hij.le
  have hmem : ∀ x ∈ List.ofFn (fiQuantileFree (nfree p) p.low p.high u),
      p.low ≤ x ∧ x ≤ p.high := by
    intro x hx
    rw [List.mem_ofFn] at hx
    obtain ⟨i, hi⟩ := hx
    subst hi
    exact fiQuantileFree_mem (nfree p) p.low p.high u hu hlh i
  refine ⟨?_, ?_, ?_⟩
  · unfold fiQuantile
    cases hfl : p.fix_left <;> cases hfr : p.fix_right <;>
        simp only [Bool.false_eq_true, if_false, if_true, List.nil_append,
          List.append_nil, List.singleton_append]
    · exact hfree
    · rw [List.pairwise_append]
      refine ⟨hfree, by simp, ?_⟩
      intro a ha b hb
      rw [List.mem_singleton] at hb
      subst hb
      exact (hmem a ha).2
    · rw [List.pairwise_cons]
      exact ⟨fun b hb => (hmem b hb).1, hfree⟩
    · rw [List.pairwise_append]
      refine ⟨?_, by simp, ?_⟩
      · rw [List.pairwise_cons]
        exact ⟨fun b hb => (hmem b hb).1, hfree⟩
      · intro a ha b hb
        rw [List.mem_singleton] at hb
        subst hb
        rw [List.mem_cons] at ha
        rcases ha with ha | ha
        · subst ha
          exact hlh
        · exact (hmem a ha).2
  · intro hfl
    unfold fiQuantile
    rw [hfl]
    simp
  · intro hfr
    unfold fiQuantile
    rw [hfr]
    rw [List.getLast?_append_of_ne_nil _ (by simp)]
    simp

/-- Witness for C4 at `n = 3`, `low = 0`, `high = 1`, both endpoints fixed,
and `u = (1/2)`. -/
theorem forcedIdentifiability_quantile_sorted_witness :
    (fiQuantile ⟨3, 0, 1, true, true⟩ (fun _ => 1/2)).Pairwise (· ≤ ·) ∧
    ((⟨3, 0, 1, true, true⟩ : FIParams).fix_left = true →
      (fiQuantile ⟨3, 0, 1, true, true⟩ (fun _ => 1/2)).head? = some (0 : ℝ)) ∧
    ((⟨3, 0, 1, true, true⟩ : FIParams).fix_right = true →
      (fiQuantile ⟨3, 0, 1, true, true⟩ (fun _ => 1/2)).getLast? = some (1 : ℝ)) :=
  forcedIdentifiability_quantile_sorted ⟨3, 0, 1, true, true⟩ (fun _ => 1/2)
    (fun _ => by norm_num) (by norm_num)

/-! ## Bernoulli (special_priors.py lines 40-66) -/

/-- `Bernoulli._quantile` (= `_forward`): `jnp.less(U, probs)` cast to the
sample dtype; the resulting `0`/`1` value is embedded in ℝ. -/
noncomputable def Bernoulli_forward (probs : ℝ) (U : ℝ) : ℝ :=
  if U < probs then 1 else 0

/-- `Bernoulli._inverse`, which delegates to `tfpd.Bernoulli(probs).cdf`:
the Bernoulli cumulative distribution function on the support `0, 1`,
which is `0` below `0`, `1 - probs` on `[0, 1)` and `1` from `1` on. -/
noncomputable def Bernoulli_inverse (probs : ℝ) (X : ℝ) : ℝ :=
  if X < 0 then 0 else if X < 1 then 1 - probs else 1

/-! ### C1: the round-trip law `inverse(forward(u)) = u`

The law fails for `Bernoulli`: the threshold test collapses every
`u < probs` to the sample `1`, whose CDF is `1`, so no tolerance recovers
`u`.  The counterexample below exhibits `probs = 1/2`, `u = 1/4`, where
`inverse(forward(u)) = 1` misses `u` by `3/4`.  The law does hold for
`ForcedIdentifiability`, exactly over ℝ. -/

/-- C1 counterexample: for the Bernoulli prior with `probs = 1/2` and
`u = 1/4 ∈ (0,1)`, `inverse(forward(u))` equals `1`, which differs from
`u` by `3/4` — the round-trip law fails at a reachable input, beyond any
floating-point tolerance. -/
theorem bernoulli_roundtrip_fails :
    Bernoulli_forward (1/2) (1/4) = 1 ∧
    Bernoulli_inverse (1/2) (Bernoulli_forward (1/2) (1/4)) = 1 ∧
    Bernoulli_inverse (1/2) (Bernoulli_forward (1/2) (1/4)) - 1/4 = 3/4 := by
  norm_num [Bernoulli_forward, Bernoulli_inverse]

/-- Stripping the fixed endpoints from the forward output recovers
exactly the free part. -/
lemma fiStrip_quantile (p : FIParams) (u : Fin (nfree p) → ℝ) :
    fiStrip p (fiQuantile p u) = List.ofFn (fiQuantileFree (nfree p) p.low p.high u) := by
  unfold fiStrip fiQuantile
  cases hfl : p.fix_left <;> cases hfr : p.fix_right <;>
      simp only [Bool.false_eq_true, if_false, if_true, List.nil_append,
        List.append_nil, List.singleton_append]
  · rw [List.dropLast_concat]
  · rw [List.drop_one, List.tail_cons]
  · rw [List.cons_append, List.drop_one, List.tail_cons, List.dropLast_concat]

lemma fiCdfFree_quantileFree (m : ℕ) (low high : ℝ) (u : Fin m → ℝ)
    (hu : ∀ i, 0 < u i) (hlh : low < high) (i : Fin m) :
    fiCdfFree m low high (fiQuantileFree m low high u) i = u i := by
  have hne : high - low ≠ 0 := sub_ne_zero.mpr (ne_of_gt hlh)
  have hlo : ∀ j : Fin m,
      fiLogOutputInv m low high (fiQuantileFree m low high u) j = fiLogOutput m u j := by
    intro j
    unfold fiLogOutputInv fiQuantileFree
    rw [add_sub_cancel_left, mul_div_cancel_left₀ _ hne, Real.log_exp]
  unfold fiCdfFree
  simp only [hlo]
  have hpeel := fiLogOutput_peel m u i
  have hsub : fiLogOutput m u i -
      (if h : i.val + 1 < m then fiLogOutput m u ⟨i.val + 1, h⟩ else 0) = fiInner m u i := by
    rw [hpeel]
    ring
  rw [hsub]
  unfold fiInner
  rw [div_mul_cancel₀ _ (by positivity : ((i.val : ℝ) + 1) ≠ 0), Real.exp_log (hu i)]

/-- C1 (amended): for `ForcedIdentifiability` with `low < high` and every
`u ∈ (0,1)^base_shape`, `inverse(forward(u))` equals `u` exactly over ℝ
(the round-trip law as stated by the spec fails for the Bernoulli prior,
see the counterexample). -/
theorem forcedIdentifiability_roundtrip (p : FIParams) (u : Fin (nfree p) → ℝ)
    (hu : ∀ i, 0 < u i ∧ u i < 1) (hlh : p.low < p.high) :
    fiCdf p (fiQuantile p u) = List.ofFn u := by
  unfold fiCdf
  rw [fiStrip_quantile]
  have harg : (fun i : Fin (nfree p) =>
      (List.ofFn (fiQuantileFree (nfree p) p.low p.high u)).getD i 0) =
      fiQuantileFree (nfree p) p.low p.high u := by
    funext i
    rw [List.getD_eq_getElem?_getD, List.getElem?_ofFn]
    simp [List.ofFnNthVal, i.isLt]
  rw [harg]
  exact congrArg List.ofFn
    (funext fun i => fiCdfFree_quantileFree (nfree p) p.low p.high u
      (fun j => (hu j).1) hlh i)

/-- Witness for the amended C1 at `n = 3`, `low = 0`, `high = 1`, both
endpoints fixed, `u = (1/2)`. -/
theorem forcedIdentifiability_roundtrip_witness :
    fiCdf ⟨3, 0, 1, true, true⟩ (fiQuantile ⟨3, 0, 1, true, true⟩ (fun _ => 1/2)) =
      List.ofFn (fun _ : Fin (nfree ⟨3, 0, 1, true, true⟩) => (1/2 : ℝ)) :=
  forcedIdentifiability_roundtrip ⟨3, 0, 1, true, true⟩ (fun _ => 1/2)
    (fun _ => by norm_num) (by norm_num)

/-! ## Beta (special_priors.py lines 69-104)

`Beta.__init__` inspects the concentration parameters with Python
`isinstance` checks: a `float`/`int` scalar equal to `1`, or a numpy array
whose entries are all `1`, selects `tfpd.Kumaraswamy`; otherwise
`tfpd.Beta` is used.  Numeric parameter values are embedded over ℚ so the
dispatch stays decidable. -/

/-- A concentration parameter as passed to `Beta.__init__`: either a
Python scalar (`float`/`int`) or a numpy array of values. -/
inductive BetaParam where
  | scalar (q : ℚ)
  | array (qs : List ℚ)
deriving DecidableEq

/-- Which distribution object `Beta.__init__` stores in `self.dist`. -/
inductive BetaDist where
  | kumaraswamy (c0 c1 : BetaParam)
  | beta (c0 c1 : BetaParam)
deriving DecidableEq

/-- `isinstance(c, (float, int)) and c == 1`. -/
def isScalarOne : BetaParam → Bool
  | .scalar q => q == 1
  | .array _ => false

/-- `isinstance(c, np.ndarray) and np.all(c == 1)`. -/
def isArrayAllOne : BetaParam → Bool
  | .scalar _ => false
  | .array qs => qs.all (· == 1)

/-- The `if`/`elif` chain of `Beta.__init__`. -/
def Beta_init (c0 c1 : BetaParam) : BetaDist :=
  if isScalarOne c0 then .kumaraswamy c0 c1
  else if isScalarOne c1 then .kumaraswamy c0 c1
  else if isArrayAllOne c0 then .kumaraswamy c0 c1
  else if isArrayAllOne c1 then .kumaraswamy c0 c1
  else .beta c0 c1

/-- The parameter is exactly `1` — elementwise for array values — as the
claim states it. -/
def BetaParamIsOne : BetaParam → Prop
  | .scalar q => q = 1
  | .array qs => ∀ q ∈ qs, q = 1

/-- The closed-form Kumaraswamy quantile
`(1 - (1 - u)^(1/c0))^(1/c1)` implemented by
`tfpd.Kumaraswamy(concentration0, concentration1).quantile`. -/
noncomputable def kumaraswamyQuantile (c0 c1 u : ℝ) : ℝ :=
  (1 - (1 - u) ^ (1/c0 : ℝ)) ^ (1/c1 : ℝ)

/-- `Beta._quantile` (= `_forward`) at one element position: delegates to
`self.dist.quantile`, which is the closed-form Kumaraswamy quantile when
`self.dist` is a `tfpd.Kumaraswamy`, and the general (incomplete-beta
inversion) Beta quantile `betaQ` otherwise.  `a0`, `a1` are the
concentration values at that position. -/
noncomputable def Beta_forward_elem (d : BetaDist) (a0 a1 : ℝ) (betaQ : ℝ → ℝ) (u : ℝ) : ℝ :=
  match d with
  | .kumaraswamy _ _ => kumaraswamyQuantile a0 a1 u
  | .beta _ _ => betaQ u

/-- The stored distribution is Kumaraswamy exactly under the dispatch
condition. -/
lemma beta_init_kumaraswamy_iff (c0 c1 : BetaParam) :
    Beta_init c0 c1 = .kumaraswamy c0 c1 ↔ BetaParamIsOne c0 ∨ BetaParamIsOne c1 := by
  have hscalar : ∀ c : BetaParam, isScalarOne c = true → BetaParamIsOne c := by
    intro c hc
    cases c with
    | scalar q =>
      simp only [isScalarOne, beq_iff_eq] at hc
      exact hc
    | array qs => simp [isScalarOne] at hc
  have harray : ∀ c : BetaParam, isArrayAllOne c = true → BetaParamIsOne c := by
    intro c hc
    cases c with
    | scalar q => simp [isArrayAllOne] at hc
    | array qs =>
      simp only [isArrayAllOne, List.all_eq_true, beq_iff_eq] at hc
      exact hc
  have hone : ∀ c : BetaParam, BetaParamIsOne c →
      isScalarOne c = true ∨ isArrayAllOne c = true := by
    intro c hc
    cases c with
    | scalar q =>
      left
      simpa [isScalarOne] using hc
    | array qs =>
      right
      simpa [isArrayAllOne, List.all_eq_true] using hc
  constructor
  · intro h
    unfold Beta_init at h
    by_cases h0 : isScalarOne c0 = true
    · exact Or.inl (hscalar c0 h0)
    · by_cases h1 : isScalarOne c1 = true
      · exact Or.inr (hscalar c1 h1)
      · by_cases h2 : isArrayAllOne c0 = true
        · exact Or.inl (harray c0 h2)
        · by_cases h3 : isArrayAllOne c1 = true
          · exact Or.inr (harray c1 h3)
          · simp [h0, h1, h2, h3] at h
  · intro h
    unfold Beta_init
    rcases h with h | h
    · rcases hone c0 h with h0 | h0
      · simp [h0]
      · by_cases hs0 : isScalarOne c0 = true
        · simp [hs0]
        · by_cases hs1 : isScalarOne c1 = true
          · simp [hs0, hs1]
          · simp [hs0, hs1, h0]
    · rcases hone c1 h with h1 | h1
      · by_cases hs0 : isScalarOne c0 = true
        · simp [hs0]
        · simp [hs0, h1]
      · by_cases hs0 : isScalarOne c0 = true
        · simp [hs0]
        · by_cases hs1 : isScalarOne c1 = true
          · simp [hs0, hs1]
          · by_cases ha0 : isArrayAllOne c0 = true
            · simp [hs0, hs1, ha0]
            · simp [hs0, hs1, ha0, h1]

/-- The `else` outcome: when neither parameter is all ones the stored
distribution is `tfpd.Beta`. -/
lemma beta_init_beta_of_not_one (c0 c1 : BetaParam)
    (h : ¬(BetaParamIsOne c0 ∨ BetaParamIsOne c1)) :
    Beta_init c0 c1 = .beta c0 c1 := by
  unfold Beta_init
  push_neg at h
  obtain ⟨h0, h1⟩ := h
  have hs0 : isScalarOne c0 ≠ true := by
    intro hc
    apply h0
    cases c0 with
    | scalar q => simpa [isScalarOne] using hc
    | array qs => simp [isScalarOne] at hc
  have hs1 : isScalarOne c1 ≠ true := by
    intro hc
    apply h1
    cases c1 with
    | scalar q => simpa [isScalarOne] using hc
    | array qs => simp [isScalarOne] at hc
  have ha0 : isArrayAllOne c0 ≠ true := by
    intro hc
    apply h0
    cases c0 with
    | scalar q => simp [isArrayAllOne] at hc
    | array qs => simpa [isArrayAllOne, List.all_eq_true] using hc
  have ha1 : isArrayAllOne c1 ≠ true := by
    intro hc
    apply h1
    cases c1 with
    | scalar q => simp [isArrayAllOne] at hc
    | array qs => simpa [isArrayAllOne, List.all_eq_true] using hc
  simp [hs0, hs1, ha0, ha1]

/-! ### C2: the Kumaraswamy special case of Beta -/

/-- C2: For the Beta prior, whenever either concentration parameter is
exactly `1` — elementwise, including array-valued parameters — the
constructed distribution is Kumaraswamy and `forward` computes the
closed-form Kumaraswamy quantile `(1 - (1-u)^(1/c0))^(1/c1)` (the formula
itself, for every general Beta quantile `betaQ` it might otherwise have
used); otherwise `forward` uses the general Beta quantile. -/
theorem beta_forward_kumaraswamy_special_case (c0 c1 : BetaParam) :
    (Beta_init c0 c1 = .kumaraswamy c0 c1 ↔ BetaParamIsOne c0 ∨ BetaParamIsOne c1) ∧
    (BetaParamIsOne c0 ∨ BetaParamIsOne c1 →
      ∀ (a0 a1 : ℝ) (betaQ : ℝ → ℝ) (u : ℝ),
        Beta_forward_elem (Beta_init c0 c1) a0 a1 betaQ u = kumaraswamyQuantile a0 a1 u) ∧
    (¬(BetaParamIsOne c0 ∨ BetaParamIsOne c1) →
      ∀ (a0 a1 : ℝ) (betaQ : ℝ → ℝ) (u : ℝ),
        Beta_forward_elem (Beta_init c0 c1) a0 a1 betaQ u = betaQ u) := by
  refine ⟨beta_init_kumaraswamy_iff c0 c1, ?_, ?_⟩
  · intro h a0 a1 betaQ u
    rw [(beta_init_kumaraswamy_iff c0 c1).mpr h]
    rfl
  · intro h a0 a1 betaQ u
    rw [beta_init_beta_of_not_one c0 c1 h]
    rfl

/-- Witness for C2 at `concentration0 = [1, 1]` (array of ones),
`concentration1 = 3`: the Kumaraswamy branch is taken. -/
theorem beta_forward_kumaraswamy_special_case_witness :
    Beta_init (.array [1, 1]) (.scalar 3) = .kumaraswamy (.array [1, 1]) (.scalar 3) ∧
    ∀ (betaQ : ℝ → ℝ) (u : ℝ),
      Beta_forward_elem (Beta_init (.array [1, 1]) (.scalar 3)) 1 3 betaQ u =
        kumaraswamyQuantile 1 3 u := by
  constructor
  · exact (beta_forward_kumaraswamy_special_case (.array [1, 1]) (.scalar 3)).1.mpr
      (Or.inl (by intro q hq; simpa using hq))
  · intro betaQ u
    exact (beta_forward_kumaraswamy_special_case (.array [1, 1]) (.scalar 3)).2.1
      (Or.inl (by intro q hq; simpa using hq)) 1 3 betaQ u

/-! ## Categorical (special_priors.py lines 107-182) -/

/-- The constructor-time mode flag of `Categorical.__init__`. -/
inductive CatParametrisation where
  | gumbel_max
  | cdf
deriving DecidableEq

/-- `Categorical._inverse`: returns `self.dist.cdf(X)` when the
parametrisation is `'cdf'`, otherwise raises `NotImplementedError`.  The
underlying `tfpd.Categorical.cdf` is abstracted as the function `cdf`. -/
def Categorical_inverse (param : CatParametrisation) (cdf : ℝ → ℝ) (X : ℝ) :
    Except String ℝ :=
  match param with
  | .cdf => Except.ok (cdf X)
  | .gumbel_max => Except.error "NotImplementedError"

/-! ### C6: `inverse` dispatch of Categorical -/

/-- C6: For the Categorical prior, `inverse(X)` raises the
unsupported-operation error (`NotImplementedError` kind) for every `X`
when the parametrisation chosen at construction is `gumbel_max`, and for
the `cdf` parametrisation `inverse(X)` returns the categorical CDF at `X`
without raising. -/
theorem categorical_inverse_dispatch :
    (∀ (cdf : ℝ → ℝ) (X : ℝ),
      Categorical_inverse .gumbel_max cdf X = Except.error "NotImplementedError") ∧
    (∀ (cdf : ℝ → ℝ) (X : ℝ),
      Categorical_inverse .cdf cdf X = Except.ok (cdf X)) :=
  ⟨fun _ _ => rfl, fun _ _ => rfl⟩

/-- Modelled from the spec: `cumulative_logsumexp` (from
`jaxns.internals.log_semiring`, a module of this repository that is not
under src/) is the numerically stable cumulative log-sum-exp along the
category axis; its mathematical value at position `i` is
`log (exp x_0 + ... + exp x_i)`. -/
noncomputable def cumulative_logsumexp (logits : List ℝ) : ℕ → ℝ :=
  fun i => Real.log (((logits.take (i + 1)).map Real.exp).sum)

/-- `cum_logits -= cum_logits[..., -1:]` of `Categorical._quantile_cdf`:
the cumulative log-probabilities normalised by the final entry. -/
noncomputable def catCumNorm (logits : List ℝ) : ℕ → ℝ :=
  fun i => cumulative_logsumexp logits i - cumulative_logsumexp logits (logits.length - 1)

/-- `jnp.searchsorted(a, v, side='left')`: on a sorted array this is the
left-most insertion index, i.e. the count of leading entries strictly
below `v` (the code applies it to the sorted cumulative array). -/
noncomputable def searchsortedLeft (v : ℝ) : List ℝ → ℕ
  | [] => 0
  | a :: t => if v ≤ a then 0 else searchsortedLeft v t + 1

/-- `Categorical._quantile_cdf` (= `_forward` under the `cdf`
parametrisation), for one batch element of the vectorised mapping:
search the normalised cumulative array for `log U`. -/
noncomputable def Categorical_quantile_cdf (logits : List ℝ) (U : ℝ) : ℕ :=
  searchsortedLeft (Real.log U)
    (List.ofFn (fun i : Fin logits.length => catCumNorm logits i))

lemma searchsortedLeft_mono {v w : ℝ} (hvw : v ≤ w) (l : List ℝ) :
    searchsortedLeft v l ≤ searchsortedLeft w l := by
  induction l with
  | nil => simp [searchsortedLeft]
  | cons a t ih =>
    unfold searchsortedLeft
    by_cases hw : w ≤ a
    · rw [if_pos (le_trans hvw hw), if_pos hw]
    · by_cases hv : v ≤ a
      · rw [if_pos hv, if_neg hw]
        omega
      · rw [if_neg hv, if_neg hw]
        omega

lemma searchsortedLeft_spec (v : ℝ) (l : List ℝ)
    (h : searchsortedLeft v l < l.length) :
    v ≤ l.getD (searchsortedLeft v l) 0 ∧
    ∀ j < searchsortedLeft v l, l.getD j 0 < v := by
  induction l with
  | nil => simp at h
  | cons a t ih =>
    unfold searchsortedLeft at h ⊢
    by_cases hv : v ≤ a
    · rw [if_pos hv]
      exact ⟨hv, by omega⟩
    · rw [if_neg hv] at h ⊢
      have ht : searchsortedLeft v t < t.length := by
        simpa using h
      refine ⟨(ih ht).1, ?_⟩
      intro j hj
      cases j with
      | zero => simpa using lt_of_not_le hv
      | succ j =>
        have : j < searchsortedLeft v t := by omega
        simpa using (ih ht).2 j this

lemma searchsortedLeft_lt_length (v : ℝ) (l : List ℝ) (i : ℕ) (hi : i < l.length)
    (hvi : v ≤ l.getD i 0) : searchsortedLeft v l < l.length := by
  induction l generalizing i with
  | nil => simp at hi
  | cons a t ih =>
    unfold searchsortedLeft
    by_cases hv : v ≤ a
    · rw [if_pos hv]
      simp
    · rw [if_neg hv]
      cases i with
      | zero =>
        simp at hvi
        exact absurd hvi hv
      | succ i =>
        simp only [List.length_cons, Nat.add_lt_add_iff_right]
        simp only [List.length_cons, Nat.add_lt_add_iff_right] at hi
        exact ih i hi (by simpa using hvi)

lemma catCumNorm_ofFn_getD (logits : List ℝ) (j : ℕ) (hj : j < logits.length) :
    (List.ofFn (fun i : Fin logits.length => catCumNorm logits i)).getD j 0 =
      catCumNorm logits j := by
  rw [List.getD_eq_getElem?_getD, List.getElem?_ofFn]
  simp [List.ofFnNthVal, hj]

lemma catCumNorm_last (logits : List ℝ) :
    catCumNorm logits (logits.length - 1) = 0 :=
  sub_self _

/-! ### C7: forward under the `cdf` parametrisation -/

/-- C7: For the Categorical prior under the `cdf` parametrisation with a
fixed logits vector, `forward` is monotone in the uniform draw (so
sweeping `u` from near `0` to near `1` produces a non-decreasing sequence
of category indices), and `forward u` is the left-most index whose
normalised cumulative log-probability is `≥ log u`, which exists among
the valid category indices for every `u ∈ (0,1)`. -/
theorem categorical_quantile_cdf_props (logits : List ℝ) (hne : logits ≠ []) :
    (∀ U1 U2 : ℝ, 0 < U1 → U1 ≤ U2 →
      Categorical_quantile_cdf logits U1 ≤ Categorical_quantile_cdf logits U2) ∧
    (∀ U : ℝ, 0 < U → U < 1 →
      Categorical_quantile_cdf logits U < logits.length ∧
      Real.log U ≤ catCumNorm logits (Categorical_quantile_cdf logits U) ∧
      ∀ j < Categorical_quantile_cdf logits U, catCumNorm logits j < Real.log U) := by
  have hlen : (List.ofFn (fun i : Fin logits.length => catCumNorm logits i)).length =
      logits.length := List.length_ofFn _
  constructor
  · intro U1 U2 h1 h12
    exact searchsortedLeft_mono (Real.log_le_log h1 h12) _
  · intro U hU0 hU1
    have hN : 0 < logits.length := List.length_pos.mpr hne
    have hlast : Real.log U ≤
        (List.ofFn (fun i : Fin logits.length => catCumNorm logits i)).getD
          (logits.length - 1) 0 := by
      rw [catCumNorm_ofFn_getD logits (logits.length - 1) (by omega), catCumNorm_last]
      exact (Real.log_neg hU0 hU1).le
    have hlt : Categorical_quantile_cdf logits U < logits.length := by
      have := searchsortedLeft_lt_length (Real.log U)
        (List.ofFn (fun i : Fin logits.length => catCumNorm logits i))
        (logits.length - 1) (by omega) hlast
      rwa [hlen] at this
    have hspec := searchsortedLeft_spec (Real.log U)
      (List.ofFn (fun i : Fin logits.length => catCumNorm logits i))
      (by rwa [hlen])
    have hc : searchsortedLeft (Real.log U)
        (List.ofFn (fun i : Fin logits.length => catCumNorm logits i)) =
        Categorical_quantile_cdf logits U := rfl
    rw [hc] at hspec
    refine ⟨hlt, ?_, ?_⟩
    · have h1 := hspec.1
      rwa [catCumNorm_ofFn_getD logits _ hlt] at h1
    · intro j hj
      have hjN : j < logits.length := lt_trans hj hlt
      have h2 := hspec.2 j hj
      rwa [catCumNorm_ofFn_getD logits j hjN] at h2

/-- Witness for C7 at `logits = [0, 0]`, `U1 = 1/4`, `U2 = 1/2`. -/
theorem categorical_quantile_cdf_props_witness :
    (Categorical_quantile_cdf [0, 0] (1/4) ≤ Categorical_quantile_cdf [0, 0] (1/2)) ∧
    (Categorical_quantile_cdf [0, 0] (1/2) < ([0, 0] : List ℝ).length ∧
      Real.log (1/2) ≤ catCumNorm [0, 0] (Categorical_quantile_cdf [0, 0] (1/2)) ∧
      ∀ j < Categorical_quantile_cdf [0, 0] (1/2),
        catCumNorm [0, 0] j < Real.log (1/2)) := by
  have h := categorical_quantile_cdf_props [0, 0] (by simp)
  exact ⟨h.1 (1/4) (1/2) (by norm_num) (by norm_num),
    h.2 (1/2) (by norm_num) (by norm_num)⟩

/-! ## Poisson (special_priors.py lines 287-351)

`_poisson_quantile_bisection` searches for the quantile of a scalar-rate
Poisson distribution by bisecting `smooth_cdf(x) = lax.igammac(x + 1, rate)`
(the regularised incomplete gamma relaxation of the Poisson CDF).  The
external `igammac` kernel is abstracted as the function `F`. -/

/-- The scan carry `(a, b, f_a, f_b)` of `_poisson_quantile_bisection`. -/
structure PoissonState where
  a : ℝ
  b : ℝ
  f_a : ℝ
  f_b : ℝ

/-- `fixed_point_update` of `_poisson_quantile_bisection`: with
`c = 0.5 * (a + b)`, `left = f_c > U` and `bounded = f_b >= U`, each
`jnp.where` becomes an `if`: when bounded, keep the half-bracket around the
target; otherwise keep `a` and double `b`. -/
noncomputable def fixed_point_update (F : ℝ → ℝ) (U : ℝ) (s : PoissonState) : PoissonState where
  a := if U ≤ s.f_b then
      (if F (0.5 * (s.a + s.b)) > U then s.a else 0.5 * (s.a + s.b)) else s.a
  b := if U ≤ s.f_b then
      (if F (0.5 * (s.a + s.b)) > U then 0.5 * (s.a + s.b) else s.b) else s.b * 2
  f_a := if U ≤ s.f_b then
      (if F (0.5 * (s.a + s.b)) > U then s.f_a else F (0.5 * (s.a + s.b))) else s.f_a
  f_b := if U ≤ s.f_b then
      (if F (0.5 * (s.a + s.b)) > U then F (0.5 * (s.a + s.b)) else s.f_b) else F (s.b * 2)

/-- The initial carry: `a = 0`, `b = rate` (clamped to at least `1e-5` by
`rate = jnp.maximum(rate, 1e-5)`), `f_a = 0`, `f_b = smooth_cdf(b)`. -/
noncomputable def poisson_init (F : ℝ → ℝ) (rate : ℝ) : PoissonState :=
  ⟨0, max rate (1e-5 : ℝ), 0, F (max rate (1e-5 : ℝ))⟩

/-- `_poisson_quantile_bisection` (scalar case): run the update for the
fixed `max_iter = 15` scan steps and return the midpoint `c = 0.5*(a+b)`. -/
noncomputable def poisson_quantile_bisection (F : ℝ → ℝ) (U rate : ℝ) : ℝ :=
  0.5 * (((fixed_point_update F U)^[15] (poisson_init F rate)).a +
    ((fixed_point_update F U)^[15] (poisson_init F rate)).b)

/-- The `astype(int_type)` cast of `_poisson_quantile`: truncation toward
zero. -/
noncomputable def truncToInt (x : ℝ) : ℤ :=
  if 0 ≤ x then ⌊x⌋ else ⌈x⌉

/-- `_poisson_quantile`: the bisection result truncated to an integer. -/
noncomputable def poisson_quantile (F : ℝ → ℝ) (U rate : ℝ) : ℤ :=
  truncToInt (poisson_quantile_bisection F U rate)

/-- One update keeps both bracket ends nonnegative. -/
lemma fixed_point_update_nonneg (F : ℝ → ℝ) (U : ℝ) (s : PoissonState)
    (ha : 0 ≤ s.a) (hb : 0 ≤ s.b) :
    0 ≤ (fixed_point_update F U s).a ∧ 0 ≤ (fixed_point_update F U s).b := by
  unfold fixed_point_update
  constructor <;> dsimp only <;> split_ifs <;> linarith

/-- All iterates of the update keep both bracket ends nonnegative. -/
lemma fixed_point_iterate_nonneg (F : ℝ → ℝ) (U rate : ℝ) (n : ℕ) :
    0 ≤ ((fixed_point_update F U)^[n] (poisson_init F rate)).a ∧
    0 ≤ ((fixed_point_update F U)^[n] (poisson_init F rate)).b := by
  induction n with
  | zero =>
    refine ⟨le_refl 0, ?_⟩
    exact le_trans (by norm_num) (le_max_right rate (1e-5 : ℝ))
  | succ n ih =>
    rw [Function.iterate_succ_apply']
    exact fixed_point_update_nonneg F U _ ih.1 ih.2

/-! ### C8: the fixed-iteration bisection for the Poisson quantile -/

/-- C8: For the Poisson prior with scalar rate, `forward` computes the
quantile by bisection on the (abstracted) regularised incomplete gamma
function `F`: while the bracket does not yet cover the target probability
(`f_b < U`) the upper bound doubles, once it covers (`f_b ≥ U`) each step
halves the bracket and keeps it nested with coverage preserved; the total
iteration count is the compile-time constant `15` starting from the
clamped bracket `[0, max rate 1e-5]`, and the returned value is the final
midpoint truncated to an integer (equal to its floor, the midpoint being
nonnegative). -/
theorem poisson_quantile_bisection_props (F : ℝ → ℝ) (U rate : ℝ) :
    (∀ s : PoissonState, U ≤ s.f_b → s.a ≤ s.b →
      (fixed_point_update F U s).b - (fixed_point_update F U s).a = (s.b - s.a) / 2 ∧
      s.a ≤ (fixed_point_update F U s).a ∧
      (fixed_point_update F U s).b ≤ s.b ∧
      U ≤ (fixed_point_update F U s).f_b) ∧
    (∀ s : PoissonState, s.f_b < U →
      (fixed_point_update F U s).a = s.a ∧
      (fixed_point_update F U s).b = s.b * 2 ∧
      (fixed_point_update F U s).f_b = F (s.b * 2)) ∧
    poisson_quantile_bisection F U rate =
      0.5 * (((fixed_point_update F U)^[15]
          (⟨0, max rate (1e-5 : ℝ), 0, F (max rate (1e-5 : ℝ))⟩ : PoissonState)).a +
        ((fixed_point_update F U)^[15]
          (⟨0, max rate (1e-5 : ℝ), 0, F (max rate (1e-5 : ℝ))⟩ : PoissonState)).b) ∧
    0 ≤ poisson_quantile_bisection F U rate ∧
    poisson_quantile F U rate = ⌊poisson_quantile_bisection F U rate⌋ := by
  have hnonneg : 0 ≤ poisson_quantile_bisection F U rate := by
    unfold poisson_quantile_bisection
    have h := fixed_point_iterate_nonneg F U rate 15
    linarith
  refine ⟨?_, ?_, rfl, hnonneg, ?_⟩
  · intro s hbounded hab
    unfold fixed_point_update
    by_cases hleft : F (0.5 * (s.a + s.b)) > U
    · refine ⟨?_, ?_, ?_, ?_⟩ <;> dsimp only <;>
        simp only [if_pos hbounded, if_pos hleft] <;> linarith
    · refine ⟨?_, ?_, ?_, ?_⟩ <;> dsimp only <;>
        simp only [if_pos hbounded, if_neg hleft] <;> linarith
  · intro s hunbounded
    have hnb : ¬ U ≤ s.f_b := not_le.mpr hunbounded
    refine ⟨?_, ?_, ?_⟩ <;> dsimp only [fixed_point_update] <;> rw [if_neg hnb]
  · unfold poisson_quantile truncToInt
    rw [if_pos hnonneg]

/-- Witness for C8 at `F = id`, `U = 1/2`, `rate = 1`. -/
theorem poisson_quantile_bisection_props_witness :
    (∀ s : PoissonState, (1:ℝ)/2 ≤ s.f_b → s.a ≤ s.b →
      (fixed_point_update id (1/2) s).b - (fixed_point_update id (1/2) s).a =
        (s.b - s.a) / 2 ∧
      s.a ≤ (fixed_point_update id (1/2) s).a ∧
      (fixed_point_update id (1/2) s).b ≤ s.b ∧
      (1:ℝ)/2 ≤ (fixed_point_update id (1/2) s).f_b) ∧
    (∀ s : PoissonState, s.f_b < (1:ℝ)/2 →
      (fixed_point_update id (1/2) s).a = s.a ∧
      (fixed_point_update id (1/2) s).b = s.b * 2 ∧
      (fixed_point_update id (1/2) s).f_b = id (s.b * 2)) ∧
    poisson_quantile_bisection id (1/2) 1 =
      0.5 * (((fixed_point_update id (1/2))^[15]
          (⟨0, max 1 (1e-5 : ℝ), 0, id (max 1 (1e-5 : ℝ))⟩ : PoissonState)).a +
        ((fixed_point_update id (1/2))^[15]
          (⟨0, max 1 (1e-5 : ℝ), 0, id (max 1 (1e-5 : ℝ))⟩ : PoissonState)).b) ∧
    0 ≤ poisson_quantile_bisection id (1/2) 1 ∧
    poisson_quantile id (1/2) 1 = ⌊poisson_quantile_bisection id (1/2) 1⌋ :=
  poisson_quantile_bisection_props id (1/2) 1

/-! ## Structured serialisation bridge (namedtuple_utils.py)

The universe of Python values walked by `serialise_namedtuple` /
`deserialise_namedtuple`: scalars (pass-through), numpy arrays (modelled
as dtype string plus flattened scalar data, the spec's "tagged
`dtype`/flattened-data map"), lists, plain tuples, string-keyed dicts and
namedtuples (records with a fully-qualified class name and named fields).
Python dicts are embedded as association lists in insertion order. -/

inductive Atom where
  | int (n : ℤ)
  | str (s : String)
  | bool (b : Bool)
  | none
deriving DecidableEq

inductive PyVal where
  | atom (a : Atom)
  | ndarray (dtype : String) (data : List Atom)
  | list (vs : List PyVal)
  | tuple (vs : List PyVal)
  | dict (entries : List (String × PyVal))
  | namedtuple (cls : String) (fields : List (String × PyVal))

/-- Python dict key lookup (keys are unique in a dict; first match). -/
def lookupStr (k : String) : List (String × PyVal) → Option PyVal
  | [] => Option.none
  | (k1, v) :: rest => if k1 = k then some v else lookupStr k rest

/-- `np.ndarray.tolist()` on the flattened data: a Python list of scalars. -/
def atomsToVals (data : List Atom) : List PyVal :=
  data.map PyVal.atom

/-- `np.array(data, dtype=dtype)` reading back a Python list of scalars
(non-scalar entries cannot occur in serialiser output; they default). -/
def valsToAtoms : List PyVal → List Atom
  | [] => []
  | .atom a :: rest => a :: valsToAtoms rest
  | _ :: rest => Atom.none :: valsToAtoms rest

mutual

/-- `serialise_namedtuple` (namedtuple_utils.py lines 31-43): namedtuples
become a tagged dict (`type`/`__class__`/`__data__`), arrays become a
tagged dict (`type`/`__dtype__`/`__data__`, via `serialise_ndarray`),
lists and tuples both become lists, dicts are walked value-wise, and
everything else passes through. -/
def serialise_namedtuple : PyVal → PyVal
  | .namedtuple cls fields =>
      .dict [("type", .atom (.str "__namedtuple__")),
             ("__class__", .atom (.str cls)),
             ("__data__", .dict (serialiseFields fields))]
  | .ndarray dtype data =>
      .dict [("type", .atom (.str "__ndarray__")),
             ("__dtype__", .atom (.str dtype)),
             ("__data__", .list (atomsToVals data))]
  | .list vs => .list (serialiseList vs)
  | .tuple vs => .list (serialiseList vs)
  | .dict entries => .dict (serialiseFields entries)
  | .atom a => .atom a

/-- The list comprehension `[serialise_namedtuple(v) for v in obj]`. -/
def serialiseList : List PyVal → List PyVal
  | [] => []
  | v :: vs => serialise_namedtuple v :: serialiseList vs

/-- The dict comprehension
`{k: serialise_namedtuple(v) for k, v in obj.items()}`. -/
def serialiseFields : List (String × PyVal) → List (String × PyVal)
  | [] => []
  | (k, v) :: rest => (k, serialise_namedtuple v) :: serialiseFields rest

end

mutual

/-- `deserialise_namedtuple` (namedtuple_utils.py lines 46-59): a dict
whose `type` key holds `"__namedtuple__"` is rebuilt into the named
record (class resolution by the dynamic import is assumed to succeed, the
claim's proviso); a dict whose `type` key holds `"__ndarray__"` is
rebuilt into an array (`deserialise_ndarray`); lists and tuples are
rebuilt as lists; other dicts are walked value-wise; everything else
passes through.  The tagged dicts are recognised in the canonical
key-shape emitted by the serialiser (the Python code looks the keys up;
on every serialiser output the two agree). -/
def deserialise_namedtuple : PyVal → PyVal
  | .dict [("type", .atom (.str "__namedtuple__")),
           ("__class__", .atom (.str cls)),
           ("__data__", .dict dataEntries)] =>
      .namedtuple cls (deserialiseFields dataEntries)
  | .dict [("type", .atom (.str "__ndarray__")),
           ("__dtype__", .atom (.str dt)),
           ("__data__", .list ds)] =>
      .ndarray dt (valsToAtoms ds)
  | .dict entries => .dict (deserialiseFields entries)
  | .list vs => .list (deserialiseList vs)
  | .tuple vs => .list (deserialiseList vs)
  | v => v

/-- The list comprehension `[deserialise_namedtuple(v) for v in obj]`
(note: applied to tuples as well, and it returns a list). -/
def deserialiseList : List PyVal → List PyVal
  | [] => []
  | v :: vs => deserialise_namedtuple v :: deserialiseList vs

/-- The dict comprehension
`{k: deserialise_namedtuple(v) for k, v in obj.items()}`. -/
def deserialiseFields : List (String × PyVal) → List (String × PyVal)
  | [] => []
  | (k, v) :: rest => (k, deserialise_namedtuple v) :: deserialiseFields rest

end

mutual

/-- The value with every plain tuple replaced by a list of the same
(recursively replaced) elements — what the serialisation bridge preserves
of the original structure. -/
def tupleToList : PyVal → PyVal
  | .list vs => .list (tupleToListList vs)
  | .tuple vs => .list (tupleToListList vs)
  | .dict entries => .dict (tupleToListFields entries)
  | .namedtuple cls fields => .namedtuple cls (tupleToListFields fields)
  | v => v

def tupleToListList : List PyVal → List PyVal
  | [] => []
  | v :: vs => tupleToList v :: tupleToListList vs

def tupleToListFields : List (String × PyVal) → List (String × PyVal)
  | [] => []
  | (k, v) :: rest => (k, tupleToList v) :: tupleToListFields rest

end

/-- A dict does not collide with the serialiser's tag encoding: its
`type` key (when present, looked up as the Python code does) does not
hold one of the reserved tag strings. -/
def dictTagOk (entries : List (String × PyVal)) : Bool :=
  match lookupStr "type" entries with
  | some (.atom (.str t)) => !(t == "__namedtuple__") && !(t == "__ndarray__")
  | _ => true

mutual

/-- No dict anywhere inside the value collides with the tag encoding. -/
def tagFreeVal : PyVal → Bool
  | .list vs => tagFreeList vs
  | .tuple vs => tagFreeList vs
  | .dict entries => dictTagOk entries && tagFreeFields entries
  | .namedtuple _ fields => tagFreeFields fields
  | _ => true

def tagFreeList : List PyVal → Bool
  | [] => true
  | v :: vs => tagFreeVal v && tagFreeList vs

def tagFreeFields : List (String × PyVal) → Bool
  | [] => true
  | (_, v) :: rest => tagFreeVal v && tagFreeFields rest

end

mutual

/-- No plain tuple occurs anywhere inside the value (the claim's universe
of nested named records, arrays, lists and maps). -/
def tupleFreeVal : PyVal → Bool
  | .list vs => tupleFreeList vs
  | .tuple _ => false
  | .dict entries => tupleFreeFields entries
  | .namedtuple _ fields => tupleFreeFields fields
  | _ => true

def tupleFreeList : List PyVal → Bool
  | [] => true
  | v :: vs => tupleFreeVal v && tupleFreeList vs

def tupleFreeFields : List (String × PyVal) → Bool
  | [] => true
  | (_, v) :: rest => tupleFreeVal v && tupleFreeFields rest

end

/-- Reading back the scalar list written by the serialiser recovers the
array data. -/
lemma valsToAtoms_atomsToVals (l : List Atom) : valsToAtoms (atomsToVals l) = l := by
  induction l with
  | nil => rfl
  | cons a t ih =>
    simp only [atomsToVals, List.map_cons] at *
    simp [valsToAtoms, ih]

/-- Key lookup commutes with the value-wise serialisation of a dict. -/
lemma lookupStr_serialiseFields (k : String) (fs : List (String × PyVal)) :
    lookupStr k (serialiseFields fs) =
      Option.map serialise_namedtuple (lookupStr k fs) := by
  induction fs with
  | nil => rfl
  | cons kv rest ih =>
    obtain ⟨k1, v⟩ := kv
    by_cases hk : k1 = k
    · simp [serialiseFields, lookupStr, hk]
    · simp [serialiseFields, lookupStr, hk, ih]

/-- The serialiser returns a bare scalar exactly on bare scalars. -/
lemma serialise_eq_atom_iff (v : PyVal) (a : Atom) :
    serialise_namedtuple v = .atom a ↔ v = .atom a := by
  cases v <;> simp [serialise_namedtuple]

/-- The round trip, proved by strong induction on the size of the value,
simultaneously for values, lists of values and field maps: on tag-free
values, deserialising the serialised tree yields the value with every
plain tuple replaced by a list. -/
lemma roundtrip_sized : ∀ n : ℕ,
    (∀ v : PyVal, sizeOf v ≤ n → tagFreeVal v = true →
      deserialise_namedtuple (serialise_namedtuple v) = tupleToList v) ∧
    (∀ vs : List PyVal, sizeOf vs ≤ n → tagFreeList vs = true →
      deserialiseList (serialiseList vs) = tupleToListList vs) ∧
    (∀ fs : List (String × PyVal), sizeOf fs ≤ n → tagFreeFields fs = true →
      deserialiseFields (serialiseFields fs) = tupleToListFields fs) := by
  intro n
  induction n using Nat.strong_induction_on with
  | _ n ih =>
    refine ⟨?_, ?_, ?_⟩
    · intro v hsize htag
      cases v with
      | atom a => simp [serialise_namedtuple, deserialise_namedtuple, tupleToList]
      | ndarray dtype data =>
        simp [serialise_namedtuple, deserialise_namedtuple, tupleToList,
          valsToAtoms_atomsToVals]
      | list vs =>
        have hlt : sizeOf vs < n := by
          simp only [PyVal.list.sizeOf_spec] at hsize
          omega
        have h2 := (ih (sizeOf vs) hlt).2.1 vs le_rfl
          (by simpa [tagFreeVal] using htag)
        simp [serialise_namedtuple, deserialise_namedtuple, tupleToList, h2]
      | tuple vs =>
        have hlt : sizeOf vs < n := by
          simp only [PyVal.tuple.sizeOf_spec] at hsize
          omega
        have h2 := (ih (sizeOf vs) hlt).2.1 vs le_rfl
          (by simpa [tagFreeVal] using htag)
        simp [serialise_namedtuple, deserialise_namedtuple, tupleToList, h2]
      | namedtuple cls fields =>
        have hlt : sizeOf fields < n := by
          simp only [PyVal.namedtuple.sizeOf_spec] at hsize
          omega
        have h3 := (ih (sizeOf fields) hlt).2.2 fields le_rfl
          (by simpa [tagFreeVal] using htag)
        simp [serialise_namedtuple, deserialise_namedtuple, tupleToList, h3]
      | dict entries =>
        have hok : dictTagOk entries = true ∧ tagFreeFields entries = true := by
          simpa [tagFreeVal, Bool.and_eq_true] using htag
        have hlt : sizeOf entries < n := by
          simp only [PyVal.dict.sizeOf_spec] at hsize
          omega
        have h3 := (ih (sizeOf entries) hlt).2.2 entries le_rfl hok.2
        have hno1 : ∀ (cls : String) (dataEntries : List (String × PyVal)),
            serialiseFields entries =
              [("type", PyVal.atom (Atom.str "__namedtuple__")),
               ("__class__", PyVal.atom (Atom.str cls)),
               ("__data__", PyVal.dict dataEntries)] → False := by
          intro cls dataEntries heq
          have hl : lookupStr "type" (serialiseFields entries) =
              some (PyVal.atom (Atom.str "__namedtuple__")) := by
            rw [heq]
            simp [lookupStr]
          rw [lookupStr_serialiseFields] at hl
          obtain ⟨w, hw, hsw⟩ := Option.map_eq_some'.mp hl
          have hwa := (serialise_eq_atom_iff w _).mp hsw
          subst hwa
          have hok1 := hok.1
          unfold dictTagOk at hok1
          rw [hw] at hok1
          simp at hok1
        have hno2 : ∀ (dt : String) (ds : List PyVal),
            serialiseFields entries =
              [("type", PyVal.atom (Atom.str "__ndarray__")),
               ("__dtype__", PyVal.atom (Atom.str dt)),
               ("__data__", PyVal.list ds)] → False := by
          intro dt ds heq
          have hl : lookupStr "type" (serialiseFields entries) =
              some (PyVal.atom (Atom.str "__ndarray__")) := by
            rw [heq]
            simp [lookupStr]
          rw [lookupStr_serialiseFields] at hl
          obtain ⟨w, hw, hsw⟩ := Option.map_eq_some'.mp hl
          have hwa := (serialise_eq_atom_iff w _).mp hsw
          subst hwa
          have hok1 := hok.1
          unfold dictTagOk at hok1
          rw [hw] at hok1
          simp at hok1
        show deserialise_namedtuple (serialise_namedtuple (PyVal.dict entries)) =
          tupleToList (PyVal.dict entries)
        rw [show serialise_namedtuple (PyVal.dict entries) =
          PyVal.dict (serialiseFields entries) from by simp [serialise_namedtuple]]
        rw [deserialise_namedtuple.eq_3 (serialiseFields entries) hno1 hno2, h3]
        simp [tupleToList]
    · intro vs hsize htag
      cases vs with
      | nil => simp [serialiseList, deserialiseList, tupleToListList]
      | cons v rest =>
        have hts : tagFreeVal v = true ∧ tagFreeList rest = true := by
          simpa [tagFreeList, Bool.and_eq_true] using htag
        have hlt1 : sizeOf v < n := by
          simp only [List.cons.sizeOf_spec] at hsize
          omega
        have hlt2 : sizeOf rest < n := by
          simp only [List.cons.sizeOf_spec] at hsize
          omega
        have hv := (ih (sizeOf v) hlt1).1 v le_rfl hts.1
        have hr := (ih (sizeOf rest) hlt2).2.1 rest le_rfl hts.2
        simp [serialiseList, deserialiseList, tupleToListList, hv, hr]
    · intro fs hsize htag
      cases fs with
      | nil => simp [serialiseFields, deserialiseFields, tupleToListFields]
      | cons kv rest =>
        obtain ⟨k, v⟩ := kv
        have hts : tagFreeVal v = true ∧ tagFreeFields rest = true := by
          simpa [tagFreeFields, Bool.and_eq_true] using htag
        have hlt1 : sizeOf v < n := by
          simp only [List.cons.sizeOf_spec, Prod.mk.sizeOf_spec] at hsize
          omega
        have hlt2 : sizeOf rest < n := by
          simp only [List.cons.sizeOf_spec, Prod.mk.sizeOf_spec] at hsize
          omega
        have hv := (ih (sizeOf v) hlt1).1 v le_rfl hts.1
        have hr := (ih (sizeOf rest) hlt2).2.2 rest le_rfl hts.2
        simp [serialiseFields, deserialiseFields, tupleToListFields, hv, hr]

/-- On tuple-free values the tuple-to-list replacement is the identity. -/
lemma tupleToList_sized : ∀ n : ℕ,
    (∀ v : PyVal, sizeOf v ≤ n → tupleFreeVal v = true → tupleToList v = v) ∧
    (∀ vs : List PyVal, sizeOf vs ≤ n → tupleFreeList vs = true →
      tupleToListList vs = vs) ∧
    (∀ fs : List (String × PyVal), sizeOf fs ≤ n → tupleFreeFields fs = true →
      tupleToListFields fs = fs) := by
  intro n
  induction n using Nat.strong_induction_on with
  | _ n ih =>
    refine ⟨?_, ?_, ?_⟩
    · intro v hsize htup
      cases v with
      | atom a => simp [tupleToList]
      | ndarray dtype data => simp [tupleToList]
      | list vs =>
        have hlt : sizeOf vs < n := by
          simp only [PyVal.list.sizeOf_spec] at hsize
          omega
        have h2 := (ih (sizeOf vs) hlt).2.1 vs le_rfl
          (by simpa [tupleFreeVal] using htup)
        simp [tupleToList, h2]
      | tuple vs => simp [tupleFreeVal] at htup
      | namedtuple cls fields =>
        have hlt : sizeOf fields < n := by
          simp only [PyVal.namedtuple.sizeOf_spec] at hsize
          omega
        have h3 := (ih (sizeOf fields) hlt).2.2 fields le_rfl
          (by simpa [tupleFreeVal] using htup)
        simp [tupleToList, h3]
      | dict entries =>
        have hlt : sizeOf entries < n := by
          simp only [PyVal.dict.sizeOf_spec] at hsize
          omega
        have h3 := (ih (sizeOf entries) hlt).2.2 entries le_rfl
          (by simpa [tupleFreeVal] using htup)
        simp [tupleToList, h3]
    · intro vs hsize htup
      cases vs with
      | nil => simp [tupleToListList]
      | cons v rest =>
        have hts : tupleFreeVal v = true ∧ tupleFreeList rest = true := by
          simpa [tupleFreeList, Bool.and_eq_true] using htup
        have hlt1 : sizeOf v < n := by
          simp only [List.cons.sizeOf_spec] at hsize
          omega
        have hlt2 : sizeOf rest < n := by
          simp only [List.cons.sizeOf_spec] at hsize
          omega
        have hv := (ih (sizeOf v) hlt1).1 v le_rfl hts.1
        have hr := (ih (sizeOf rest) hlt2).2.1 rest le_rfl hts.2
        simp [tupleToListList, hv, hr]
    · intro fs hsize htup
      cases fs with
      | nil => simp [tupleToListFields]
      | cons kv rest =>
        obtain ⟨k, v⟩ := kv
        have hts : tupleFreeVal v = true ∧ tupleFreeFields rest = true := by
          simpa [tupleFreeFields, Bool.and_eq_true] using htup
        have hlt1 : sizeOf v < n := by
          simp only [List.cons.sizeOf_spec, Prod.mk.sizeOf_spec] at hsize
          omega
        have hlt2 : sizeOf rest < n := by
          simp only [List.cons.sizeOf_spec, Prod.mk.sizeOf_spec] at hsize
          omega
        have hv := (ih (sizeOf v) hlt1).1 v le_rfl hts.1
        have hr := (ih (sizeOf rest) hlt2).2.2 rest le_rfl hts.2
        simp [tupleToListFields, hv, hr]

/-! ### C9: the serialisation round trip -/

/-- C9 counterexample: the map
`{"type": "__ndarray__", "__dtype__": "int64", "__data__": []}` —
a structured value composed only of maps, strings and a list — serialises
to itself, but deserialisation mistakes it for a tagged array encoding and
returns an array, not the original map. -/
theorem serialisation_roundtrip_tag_collision :
    deserialise_namedtuple (serialise_namedtuple (PyVal.dict
      [("type", .atom (.str "__ndarray__")),
       ("__dtype__", .atom (.str "int64")),
       ("__data__", .list [])])) = PyVal.ndarray "int64" [] ∧
    PyVal.ndarray "int64" [] ≠ PyVal.dict
      [("type", .atom (.str "__ndarray__")),
       ("__dtype__", .atom (.str "int64")),
       ("__data__", .list [])] := by
  constructor
  · simp [serialise_namedtuple, serialiseFields, serialiseList,
      deserialise_namedtuple, valsToAtoms]
  · simp

/-- C9 (amended): For every structured value composed of nested named
records, arrays, lists and maps in which no map binds the key `type` to
one of the reserved tag strings (`__namedtuple__` / `__ndarray__`),
`deserialise(serialise(value))` reconstructs a value equal to the
original in type, field values and array dtype/contents (named record
types assumed resolvable, per the claim's proviso). -/
theorem serialisation_roundtrip (v : PyVal) (htag : tagFreeVal v = true)
    (htup : tupleFreeVal v = true) :
    deserialise_namedtuple (serialise_namedtuple v) = v := by
  rw [(roundtrip_sized (sizeOf v)).1 v le_rfl htag]
  exact (tupleToList_sized (sizeOf v)).1 v le_rfl htup

/-- Witness for C9 on a nested record holding an array, a list and a map. -/
theorem serialisation_roundtrip_witness :
    deserialise_namedtuple (serialise_namedtuple (PyVal.namedtuple "jaxns.internals.Sample"
      [("w", .ndarray "float64" [.int 1, .int 2]),
       ("xs", .list [.atom (.int 3), .atom (.str "a")]),
       ("m", .dict [("k", .atom Atom.none)])])) =
    PyVal.namedtuple "jaxns.internals.Sample"
      [("w", .ndarray "float64" [.int 1, .int 2]),
       ("xs", .list [.atom (.int 3), .atom (.str "a")]),
       ("m", .dict [("k", .atom Atom.none)])] :=
  serialisation_roundtrip _
    (by simp [tagFreeVal, tagFreeFields, tagFreeList, dictTagOk, lookupStr])
    (by simp [tupleFreeVal, tupleFreeFields, tupleFreeList])

/-! ### C10: plain tuples come back as lists -/

/-- C10 counterexample: for the value `(({"type": "__ndarray__", ...},))`
(a tuple whose element is a tag-colliding map), the round trip does not
merely replace tuples by lists of the same elements: the element itself
is rebuilt as an array. -/
theorem serialisation_tuple_collision :
    deserialise_namedtuple (serialise_namedtuple (PyVal.tuple [PyVal.dict
      [("type", .atom (.str "__ndarray__")),
       ("__dtype__", .atom (.str "int64")),
       ("__data__", .list [])]])) = PyVal.list [PyVal.ndarray "int64" []] ∧
    tupleToList (PyVal.tuple [PyVal.dict
      [("type", .atom (.str "__ndarray__")),
       ("__dtype__", .atom (.str "int64")),
       ("__data__", .list [])]]) = PyVal.list [PyVal.dict
      [("type", .atom (.str "__ndarray__")),
       ("__dtype__", .atom (.str "int64")),
       ("__data__", .list [])]] ∧
    PyVal.list [PyVal.ndarray "int64" []] ≠ PyVal.list [PyVal.dict
      [("type", .atom (.str "__ndarray__")),
       ("__dtype__", .atom (.str "int64")),
       ("__data__", .list [])]] := by
  refine ⟨?_, ?_, ?_⟩
  · simp [serialise_namedtuple, serialiseFields, serialiseList,
      deserialise_namedtuple, deserialiseList, valsToAtoms]
  · simp [tupleToList, tupleToListList, tupleToListFields]
  · simp

/-- C10 (amended): the bridge encodes every plain tuple as a list and
deserialisation rebuilds a list, so — provided no map in the value binds
the key `type` to a reserved tag string — `deserialise(serialise(value))`
is the value with every plain tuple replaced by a list of the same
(recursively processed) elements rather than restored as a tuple. -/
theorem serialisation_tuple_becomes_list :
    (∀ vs : List PyVal,
      serialise_namedtuple (.tuple vs) = serialise_namedtuple (.list vs)) ∧
    (∀ vs : List PyVal,
      deserialise_namedtuple (.tuple vs) = .list (deserialiseList vs)) ∧
    (∀ vs : List PyVal, tupleToList (.tuple vs) = .list (tupleToListList vs)) ∧
    (∀ v : PyVal, tagFreeVal v = true →
      deserialise_namedtuple (serialise_namedtuple v) = tupleToList v) := by
  refine ⟨?_, ?_, ?_, ?_⟩
  · intro vs
    simp [serialise_namedtuple]
  · intro vs
    simp [deserialise_namedtuple]
  · intro vs
    simp [tupleToList]
  · intro v htag
    exact (roundtrip_sized (sizeOf v)).1 v le_rfl htag

/-- Witness for C10 on the tuple `(7, [1], {"k": 2})`. -/
theorem serialisation_tuple_becomes_list_witness :
    deserialise_namedtuple (serialise_namedtuple (PyVal.tuple
      [.atom (.int 7), .list [.atom (.int 1)], .dict [("k", .atom (.int 2))]])) =
    tupleToList (PyVal.tuple
      [.atom (.int 7), .list [.atom (.int 1)], .dict [("k", .atom (.int 2))]]) :=
  serialisation_tuple_becomes_list.2.2.2 _
    (by simp [tagFreeVal, tagFreeList, tagFreeFields, dictTagOk, lookupStr])
